import Mathlib

/-!
# Verification of the skeldir tree-text-to-filesystem pipeline

This file gives a shallow embedding, in Lean 4, of the two core components of
the `skeldir` CLI (`src/bin/index.js`):

* `parseTree` — the indentation/glyph-based tree parser that converts a list of
  raw text lines into a nested hierarchy of named folder/file nodes, and
* `createFromStructureWithContent` — the filesystem materializer that walks the
  hierarchy and creates directories and files.

Modelling choices, stated once here:

* A JavaScript string is modelled as a `List Char` (the box-drawing glyphs used
  by the parser are single UTF-16 code units, so per-character indexing in the
  source coincides with per-`Char` traversal here).
* A JavaScript plain object used as a string-keyed map is modelled as an
  association list `List (List Char × Node)` in insertion order; property
  assignment `obj[k] = v` is `upsert`, which replaces the value in place when
  the key exists (keeping its original position in iteration order) and appends
  otherwise, exactly the observable behaviour of JS objects for string keys.
* The JS parser mutates directory objects through aliases kept on its stack
  (`parent[name] = node; stack.push({depth, node})`).  In the functional model
  the stack frame carries the growing child list and the write into the parent
  is performed when the frame is popped (`doPops` / `flushAll`).  This is
  observationally identical: while a child frame is live, its parent is never
  the top of the stack, so no other insertion can touch the parent's object in
  between, and `upsert` reproduces the position the eager aliased write would
  have had.
* Filesystem effects are modelled as a trace of operations (`FsOp`) in the
  exact order the synchronous JS walk performs them; a fault oracle
  (`runFsOps`) models each `fs` call either succeeding or throwing, a throw
  propagating out of the whole walk (there is no `try`/`catch` in the source).
* `path.join(base, key)` is modelled as `pathJoin`, POSIX joining with a single
  separator; the claims never exercise `path.join`'s normalisation of `..` or
  absolute segments.
* Console logging (`verbose` output) has no bearing on any claim and is not
  modelled.
-/

namespace Skeldir

/-- One raw input line / one name, as a sequence of characters. -/
abbrev Str := List Char

/-- The character class matched by JavaScript `\s` and removed by
`String.prototype.trim`: ASCII whitespace, NBSP, the Unicode space separators,
line/paragraph separators and the BOM. -/
def jsWhitespace (c : Char) : Bool :=
  c = ' ' || c = '\t' || c = '\n' || c = '\x0b' || c = '\x0c' || c = '\r' ||
  c.toNat = 0xa0 || c.toNat = 0x1680 || (0x2000 ≤ c.toNat && c.toNat ≤ 0x200a) ||
  c.toNat = 0x2028 || c.toNat = 0x2029 || c.toNat = 0x202f || c.toNat = 0x205f ||
  c.toNat = 0x3000 || c.toNat = 0xfeff

/-- `line.trim()`: strip leading and trailing JS whitespace. -/
def jsTrim (s : Str) : Str :=
  ((s.dropWhile jsWhitespace).reverse.dropWhile jsWhitespace).reverse

/-- Membership in the parser's `treeChars` set:
`new Set([" ", "│", "├", "└", "─"])`. -/
def isTreeChar (c : Char) : Bool :=
  c = ' ' || c = '│' || c = '├' || c = '└' || c = '─'

/-- The `while` loop of `getDepth`: length of the maximal leading run of
characters in `treeChars` (the final value of `firstCharIndex`). -/
def firstCharIndex : Str → Nat
  | [] => 0
  | c :: rest => if isTreeChar c then firstCharIndex rest + 1 else 0

/-- `getDepth(line)`: `Math.floor(firstCharIndex / 4)`. -/
def getDepth (line : Str) : Nat :=
  firstCharIndex line / 4

/-- The character class of the leading-strip regex `/^[├└│─\s]+/`. -/
def isConnectorOrWs (c : Char) : Bool :=
  c = '├' || c = '└' || c = '│' || c = '─' || jsWhitespace c

/-- `trimmed.replace(/^[├└│─\s]+/, "")`: drop the maximal leading run of
connector/whitespace characters. -/
def stripConnectors (s : Str) : Str :=
  s.dropWhile isConnectorOrWs

/-- The `clean` string of a line: `line.trim().replace(/^[├└│─\s]+/, "")`. -/
def cleanOf (line : Str) : Str :=
  stripConnectors (jsTrim line)

/-- `clean.endsWith("/")`. -/
def isFolderOf (line : Str) : Bool :=
  (cleanOf line).getLast? = some '/'

/-- The entry name of a line: `isFolder ? clean.slice(0, -1) : clean`. -/
def nameOf (line : Str) : Str :=
  if isFolderOf line then (cleanOf line).dropLast else cleanOf line

/-- A node of the parsed hierarchy, mirroring the dynamic typing of the JS
structure values: `null` (empty-file placeholder), a string (literal file
content), or a nested object (directory). -/
inductive Node where
  | file : Node
  | lit : Str → Node
  | dir : List (Str × Node) → Node
deriving Repr

/-- A directory's children: a JS object as an insertion-ordered assoc list. -/
abbrev Children := List (Str × Node)

/-- JS property assignment `obj[k] = v`: replace in place if the key exists
(keeping its position in iteration order), append otherwise. -/
def upsert (k : Str) (v : Node) : Children → Children
  | [] => [(k, v)]
  | (k', v') :: rest => if k' = k then (k, v) :: rest else (k', v') :: upsert k v rest

/-- A parser stack frame `{depth, node}`; `name` records the key under which
the frame's directory is (aliased in JS / written back here) in its parent. -/
structure Frame where
  depth : Nat
  name : Str
  children : Children
deriving Repr

/-- The parser state: the root object's children and the stack of open
directory frames above the root (head = top of stack).  The root's sentinel
frame `{depth: -1, node: root}` is represented by the `root` field itself:
line depths are naturals, so the JS pop condition `depth <= -1` at the
sentinel is never true and the sentinel is never popped. -/
structure PState where
  root : Children
  stack : List Frame
deriving Repr

/-- The body of the pop loop once the stack is split into its top frame `f`
and the frames `rest` below it: pop while the condition holds, each pop
writing the popped frame's directory into its parent under the frame's name —
the write the JS code already performed eagerly through the alias when the
frame was pushed. -/
def doPopsAux (depth : Nat) : Frame → List Frame → Children → PState
  | f, [], root =>
      if depth ≤ f.depth then ⟨upsert f.name (Node.dir f.children) root, []⟩
      else ⟨root, [f]⟩
  | f, g :: rest, root =>
      if depth ≤ f.depth then
        doPopsAux depth { g with children := upsert f.name (Node.dir f.children) g.children } rest root
      else ⟨root, f :: g :: rest⟩

/-- `while (stack.length && depth <= stack[stack.length - 1].depth) stack.pop()`. -/
def doPops (depth : Nat) (s : PState) : PState :=
  match s with
  | ⟨root, []⟩ => ⟨root, []⟩
  | ⟨root, f :: rest⟩ => doPopsAux depth f rest root

/-- Insert a key/value into the directory at the top of the stack
(`parent[name] = …` where `parent = stack[stack.length - 1].node`). -/
def insertTop (k : Str) (v : Node) : PState → PState
  | ⟨root, []⟩ => ⟨upsert k v root, []⟩
  | ⟨root, f :: rest⟩ => ⟨root, { f with children := upsert k v f.children } :: rest⟩

/-- The body of `inputLines.forEach((line) => { … })`: skip blank lines, else
compute depth and clean name, pop the stack, and attach a directory (pushing a
frame) or a file. -/
def step (s : PState) (line : Str) : PState :=
  if jsTrim line = [] then s
  else
    let depth := getDepth line
    let name := nameOf line
    let s' := doPops depth s
    if isFolderOf line then ⟨s'.root, ⟨depth, name, []⟩ :: s'.stack⟩
    else insertTop name Node.file s'

/-- Write back each still-open frame, from the top of the stack down. -/
def flushAllAux : Frame → List Frame → Children → Children
  | f, [], root => upsert f.name (Node.dir f.children) root
  | f, g :: rest, root =>
      flushAllAux { g with children := upsert f.name (Node.dir f.children) g.children } rest root

/-- Write every still-open frame back into its parent (in JS these writes
already happened through aliasing; the functional model performs them when the
parse ends and `root` is returned). -/
def flushAll (s : PState) : Children :=
  match s with
  | ⟨root, []⟩ => root
  | ⟨root, f :: rest⟩ => flushAllAux f rest root

/-- `parseTree(inputLines)`: fold the per-line body over the input from the
empty root and return the root object. -/
def parseTree (inputLines : List Str) : Children :=
  flushAll (inputLines.foldl step ⟨[], []⟩)

/-! ## The materializer -/

/-- `path.join(basePath, key)` for a relative key: base, separator, key. -/
def pathJoin (base key : Str) : Str :=
  base ++ '/' :: key

/-- The placeholder written for a `null` (empty-file) child:
`` `// ${key} created by CLI\n` ``. -/
def placeholder (key : Str) : Str :=
  ('/' :: '/' :: ' ' :: key) ++ (' ' :: "created by CLI\n".data)

/-- One observable filesystem mutation performed by the materializer. -/
inductive FsOp where
  | writeFile : Str → Str → FsOp
  | mkdir : Str → FsOp
deriving Repr, DecidableEq

mutual
/-- The trace of filesystem operations `createFromStructureWithContent
(basePath, structure)` performs, in execution order: for each key in insertion
order, write a placeholder file (`null` value), write literal content (string
value), or make the directory and recurse (object value). -/
def createFromStructureWithContent (basePath : Str) : Children → List FsOp
  | [] => []
  | (key, value) :: rest =>
      createEntry basePath key value ++ createFromStructureWithContent basePath rest

/-- The body of the `for (const key in structure)` loop for one `key`. -/
def createEntry (basePath : Str) (key : Str) : Node → List FsOp
  | Node.file => [FsOp.writeFile (pathJoin basePath key) (placeholder key)]
  | Node.lit content => [FsOp.writeFile (pathJoin basePath key) content]
  | Node.dir children =>
      FsOp.mkdir (pathJoin basePath key) :: createFromStructureWithContent (pathJoin basePath key) children
end

/-- Execute a trace against a fault oracle `fails`: each operation either
succeeds (and is recorded) or throws, and a throw aborts every remaining
operation (the source has no `try`/`catch`, so the first exception propagates
out of the entire recursive walk).  Returns the successfully performed prefix
and the failing operation, if any. -/
def runFsOps (fails : FsOp → Bool) : List FsOp → List FsOp × Option FsOp
  | [] => ([], none)
  | op :: rest =>
      if fails op then ([], some op)
      else
        let r := runFsOps fails rest
        (op :: r.1, r.2)

/-- Materialize a structure under `basePath` against a fault oracle: run the
walk's operations in order until the first failure. -/
def materialize (fails : FsOp → Bool) (basePath : Str) (structure_ : Children) :
    List FsOp × Option FsOp :=
  runFsOps fails (createFromStructureWithContent basePath structure_)

/-! ## Well-formed names and rendered input lines

`validNameB` is the class of entry names for which an indented rendering is
unambiguous: non-empty, no indentation-glyph or whitespace characters, and no
path separator.  `fileLine`/`folderLine` build the canonical 4-space-per-level
rendering of an entry, the "consistent 4-character indentation unit" inputs of
the round-trip property. -/

def validNameB (k : Str) : Bool :=
  !k.isEmpty && k.all (fun c => !isConnectorOrWs c && c ≠ '/')

/-- `4·d` spaces of leading indentation. -/
def indentOf (d : Nat) : Str := List.replicate (4 * d) ' '

/-- The rendered line of a file entry named `k` at nesting depth `d`. -/
def fileLine (d : Nat) (k : Str) : Str := indentOf d ++ k

/-- The rendered line of a folder entry named `k` at nesting depth `d`. -/
def folderLine (d : Nat) (k : Str) : Str := indentOf d ++ k ++ ['/']

mutual
/-- Canonical rendering of one hierarchy entry as indented tree text, the
spec's well-formed input shape: a file is one line, a folder is its line
followed by its children one level deeper. -/
def renderEntry (d : Nat) (k : Str) : Node → List Str
  | Node.file => [fileLine d k]
  | Node.lit _ => [fileLine d k]
  | Node.dir cs => folderLine d k :: renderChildren (d + 1) cs

/-- Canonical rendering of a child list at depth `d`, in order. -/
def renderChildren (d : Nat) : Children → List Str
  | [] => []
  | (k, n) :: rest => renderEntry d k n ++ renderChildren d rest
end

mutual
/-- Well-formedness of a node for the round-trip property: no literal-content
nodes (the parser never produces them) and every directory well-formed. -/
def wfNodeB : Node → Bool
  | Node.file => true
  | Node.lit _ => false
  | Node.dir cs => wfChildrenB cs

/-- Well-formedness of a child list: every name valid (non-empty, free of
indentation glyphs, whitespace and separators), keys distinct, and every child
node well-formed. -/
def wfChildrenB : Children → Bool
  | [] => true
  | (k, n) :: rest =>
      validNameB k && wfNodeB n && rest.all (fun e => !(e.1 == k)) && wfChildrenB rest
end

mutual
/-- Every directory reachable from a node has pairwise-distinct keys. -/
def nodupKeysNodeB : Node → Bool
  | Node.file => true
  | Node.lit _ => true
  | Node.dir cs => nodupKeysChildrenB cs

/-- Pairwise-distinct keys, recursively through child nodes. -/
def nodupKeysChildrenB : Children → Bool
  | [] => true
  | (k, n) :: rest =>
      nodupKeysNodeB n && rest.all (fun e => !(e.1 == k)) && nodupKeysChildrenB rest
end

mutual
/-- No `lit` (string-content) node occurs anywhere in a node. -/
def noLitNodeB : Node → Bool
  | Node.file => true
  | Node.lit _ => false
  | Node.dir cs => noLitChildrenB cs

/-- No `lit` node occurs anywhere in a child list. -/
def noLitChildrenB : Children → Bool
  | [] => true
  | (_, n) :: rest => noLitNodeB n && noLitChildrenB rest
end

mutual
/-- Every key of every directory reachable from a node. -/
def nodeKeys : Node → List Str
  | Node.file => []
  | Node.lit _ => []
  | Node.dir cs => childrenKeys cs

/-- Every key of a child list, including keys nested in child nodes. -/
def childrenKeys : Children → List Str
  | [] => []
  | (k, n) :: rest => k :: (nodeKeys n ++ childrenKeys rest)
end

/-- Every key pending in a list of open frames: each frame's own key and the
keys of its children. -/
def framesKeys : List Frame → List Str
  | [] => []
  | f :: rest => f.name :: (childrenKeys f.children ++ framesKeys rest)

/-- Every key occurring anywhere in the parser state: in the root object or in
any open frame (the frame's own pending key and its children). -/
def stateKeys (s : PState) : List Str :=
  childrenKeys s.root ++ framesKeys s.stack

/-- Key-distinctness of every directory in the parser state. -/
def stateNodupB (s : PState) : Bool :=
  nodupKeysChildrenB s.root && s.stack.all (fun f => nodupKeysChildrenB f.children)

/-- Absence of `lit` nodes everywhere in the parser state. -/
def stateNoLitB (s : PState) : Bool :=
  noLitChildrenB s.root && s.stack.all (fun f => noLitChildrenB f.children)

/-- Fold the per-line parser body over a list of lines from a given state. -/
def runParse (s : PState) (lines : List Str) : PState :=
  lines.foldl step s

/-- Insert a list of entries, in order, into the directory at the top of the
parser stack. -/
def insertAllTop (cs : Children) (s : PState) : PState :=
  cs.foldl (fun s e => insertTop e.1 e.2 s) s

/-- Fold `upsert` over a list of entries into an accumulator object. -/
def upsertAll (cs acc : Children) : Children :=
  cs.foldl (fun acc e => upsert e.1 e.2 acc) acc

/-- A parser state is collapsed at `depth` when the pop loop for a line of
that depth would not pop anything: the top frame, if any, is strictly
shallower. -/
def Collapsed (d : Nat) (s : PState) : Prop :=
  ∀ f ∈ s.stack.head?.toList, f.depth < d

mutual
/-- The directory/file listing of the filesystem subtree the materializer
creates for one entry: the flag is `true` for a directory, `false` for a
file, paired with the full path. -/
def listingEntry (base : Str) (k : Str) : Node → List (Bool × Str)
  | Node.file => [(false, pathJoin base k)]
  | Node.lit _ => [(false, pathJoin base k)]
  | Node.dir cs => (true, pathJoin base k) :: listingChildren (pathJoin base k) cs

/-- The listing of the subtree created for a whole child list. -/
def listingChildren (base : Str) : Children → List (Bool × Str)
  | [] => []
  | (k, n) :: rest => listingEntry base k n ++ listingChildren base rest
end

/-- The kind (directory?) and path of one filesystem operation. -/
def opEntry : FsOp → Bool × Str
  | FsOp.writeFile p _ => (false, p)
  | FsOp.mkdir p => (true, p)

/-! ## Character-scanning lemmas -/

theorem jsWhitespace_connector {c : Char} (h : jsWhitespace c = true) :
    isConnectorOrWs c = true := by
  simp [isConnectorOrWs, h]

theorem isTreeChar_connector {c : Char} (h : isTreeChar c = true) :
    isConnectorOrWs c = true := by
  simp only [isTreeChar, Bool.or_eq_true, decide_eq_true_eq] at h
  obtain (((h | h) | h) | h) | h := h <;> subst h <;> decide

theorem dropWhile_append_of_all {p : Char → Bool} {xs : List Char} (ys : List Char)
    (h : ∀ c ∈ xs, p c = true) : (xs ++ ys).dropWhile p = ys.dropWhile p := by
  induction xs with
  | nil => rfl
  | cons c rest ih =>
      have hc : p c = true := h c (by simp)
      simp only [List.cons_append, List.dropWhile_cons, hc, if_true]
      exact ih (fun c' hc' => h c' (by simp [hc']))

theorem dropWhile_eq_self_of_all {p : Char → Bool} {l : List Char}
    (h : ∀ c ∈ l, p c = false) : l.dropWhile p = l := by
  cases l with
  | nil => rfl
  | cons c rest => simp [List.dropWhile_cons, h c (by simp)]

theorem firstCharIndex_append_of_all {xs : List Char} (ys : List Char)
    (h : ∀ c ∈ xs, isTreeChar c = true) :
    firstCharIndex (xs ++ ys) = xs.length + firstCharIndex ys := by
  induction xs with
  | nil => simp
  | cons c rest ih =>
      have hc := h c (by simp)
      have ih' := ih (fun c' hc' => h c' (by simp [hc']))
      simp only [List.cons_append, firstCharIndex, hc, if_true, List.append_eq, ih',
        List.length_cons]
      omega

theorem firstCharIndex_eq_zero {l : List Char}
    (h : ∀ c ∈ l.head?, isTreeChar c = false) : firstCharIndex l = 0 := by
  cases l with
  | nil => rfl
  | cons c rest => simp [firstCharIndex, h c (by simp)]

/-! ## Properties of valid names -/

theorem validNameB_ne_nil {k : Str} (h : validNameB k = true) : k ≠ [] := by
  intro hnil
  subst hnil
  simp [validNameB] at h

theorem validNameB_mem {k : Str} (h : validNameB k = true) {c : Char} (hc : c ∈ k) :
    isConnectorOrWs c = false ∧ c ≠ '/' := by
  simp only [validNameB, Bool.and_eq_true, List.all_eq_true] at h
  have := h.2 c hc
  simpa using this

theorem validNameB_not_ws {k : Str} (h : validNameB k = true) {c : Char} (hc : c ∈ k) :
    jsWhitespace c = false := by
  have h1 := (validNameB_mem h hc).1
  by_contra hw
  simp only [Bool.not_eq_false] at hw
  rw [jsWhitespace_connector hw] at h1
  exact absurd h1 (by simp)

theorem validNameB_not_tree {k : Str} (h : validNameB k = true) {c : Char} (hc : c ∈ k) :
    isTreeChar c = false := by
  have h1 := (validNameB_mem h hc).1
  by_contra ht
  simp only [Bool.not_eq_false] at ht
  rw [isTreeChar_connector ht] at h1
  exact absurd h1 (by simp)

/-! ## How the parser reads a canonically rendered line -/

theorem jsTrim_fileLine {k : Str} (h : validNameB k = true) (d : Nat) :
    jsTrim (fileLine d k) = k := by
  have hnw : ∀ c ∈ k, jsWhitespace c = false := fun c hc => validNameB_not_ws h hc
  have h1 : (indentOf d ++ k).dropWhile jsWhitespace = k := by
    rw [indentOf, dropWhile_append_of_all k
      (fun c hc => by rw [List.eq_of_mem_replicate hc]; decide)]
    exact dropWhile_eq_self_of_all hnw
  rw [jsTrim, fileLine, h1, dropWhile_eq_self_of_all
    (fun c hc => hnw c (List.mem_reverse.mp hc)), List.reverse_reverse]

theorem jsTrim_folderLine {k : Str} (h : validNameB k = true) (d : Nat) :
    jsTrim (folderLine d k) = k ++ ['/'] := by
  have hnw : ∀ c ∈ k ++ ['/'], jsWhitespace c = false := by
    intro c hc
    rcases List.mem_append.mp hc with hc | hc
    · exact validNameB_not_ws h hc
    · simp only [List.mem_singleton] at hc; subst hc; decide
  have h1 : (indentOf d ++ (k ++ ['/'])).dropWhile jsWhitespace = k ++ ['/'] := by
    rw [indentOf, dropWhile_append_of_all (k ++ ['/'])
      (fun c hc => by rw [List.eq_of_mem_replicate hc]; decide)]
    exact dropWhile_eq_self_of_all hnw
  rw [jsTrim, folderLine, List.append_assoc, h1, dropWhile_eq_self_of_all
    (fun c hc => hnw c (List.mem_reverse.mp hc)), List.reverse_reverse]

theorem cleanOf_fileLine {k : Str} (h : validNameB k = true) (d : Nat) :
    cleanOf (fileLine d k) = k := by
  rw [cleanOf, jsTrim_fileLine h, stripConnectors,
    dropWhile_eq_self_of_all (fun c hc => (validNameB_mem h hc).1)]

theorem cleanOf_folderLine {k : Str} (h : validNameB k = true) (d : Nat) :
    cleanOf (folderLine d k) = k ++ ['/'] := by
  rw [cleanOf, jsTrim_folderLine h, stripConnectors, dropWhile_eq_self_of_all]
  intro c hc
  rcases List.mem_append.mp hc with hc | hc
  · exact (validNameB_mem h hc).1
  · simp only [List.mem_singleton] at hc; subst hc; decide

theorem isFolderOf_fileLine {k : Str} (h : validNameB k = true) (d : Nat) :
    isFolderOf (fileLine d k) = false := by
  rw [isFolderOf, cleanOf_fileLine h]
  have hne := validNameB_ne_nil h
  simp only [List.getLast?_eq_getLast _ hne, Option.some.injEq, decide_eq_false_iff_not]
  intro hlast
  exact (validNameB_mem h (List.getLast_mem hne)).2 hlast

theorem isFolderOf_folderLine {k : Str} (h : validNameB k = true) (d : Nat) :
    isFolderOf (folderLine d k) = true := by
  rw [isFolderOf, cleanOf_folderLine h]
  simp [List.getLast?_concat]

theorem nameOf_fileLine {k : Str} (h : validNameB k = true) (d : Nat) :
    nameOf (fileLine d k) = k := by
  rw [nameOf, isFolderOf_fileLine h]
  simp [cleanOf_fileLine h]

theorem nameOf_folderLine {k : Str} (h : validNameB k = true) (d : Nat) :
    nameOf (folderLine d k) = k := by
  rw [nameOf, isFolderOf_folderLine h]
  simp [cleanOf_folderLine h, List.dropLast_concat]

theorem getDepth_fileLine {k : Str} (h : validNameB k = true) (d : Nat) :
    getDepth (fileLine d k) = d := by
  have hk : firstCharIndex k = 0 := by
    apply firstCharIndex_eq_zero
    intro c hc
    cases k with
    | nil => simp at hc
    | cons a rest =>
        simp only [List.head?_cons, Option.mem_def, Option.some.injEq] at hc
        subst hc
        exact validNameB_not_tree h (by simp)
  rw [getDepth, fileLine, indentOf, firstCharIndex_append_of_all k
    (fun c hc => by rw [List.eq_of_mem_replicate hc]; decide), hk, List.length_replicate]
  omega

theorem getDepth_folderLine {k : Str} (h : validNameB k = true) (d : Nat) :
    getDepth (folderLine d k) = d := by
  have hne := validNameB_ne_nil h
  have hk : firstCharIndex (k ++ ['/']) = 0 := by
    apply firstCharIndex_eq_zero
    intro c hc
    cases k with
    | nil => exact absurd rfl hne
    | cons a rest =>
        simp only [List.cons_append, List.head?_cons, Option.mem_def, Option.some.injEq] at hc
        subst hc
        exact validNameB_not_tree h (by simp)
  rw [getDepth, folderLine, List.append_assoc, indentOf,
    firstCharIndex_append_of_all (k ++ ['/'])
      (fun c hc => by rw [List.eq_of_mem_replicate hc]; decide), hk, List.length_replicate]
  omega

theorem jsTrim_fileLine_ne_nil {k : Str} (h : validNameB k = true) (d : Nat) :
    jsTrim (fileLine d k) ≠ [] := by
  rw [jsTrim_fileLine h]
  exact validNameB_ne_nil h

theorem jsTrim_folderLine_ne_nil {k : Str} (h : validNameB k = true) (d : Nat) :
    jsTrim (folderLine d k) ≠ [] := by
  rw [jsTrim_folderLine h]
  simp

/-- Processing a rendered file line: pop to the line's depth, then attach the
name as a `null` entry in the directory now on top. -/
theorem step_fileLine {k : Str} (h : validNameB k = true) (d : Nat) (s : PState) :
    step s (fileLine d k) = insertTop k Node.file (doPops d s) := by
  rw [step, if_neg (jsTrim_fileLine_ne_nil h d)]
  simp only [getDepth_fileLine h, nameOf_fileLine h, isFolderOf_fileLine h]
  simp

/-- Processing a rendered folder line: pop to the line's depth, then push a
fresh directory frame for the name. -/
theorem step_folderLine {k : Str} (h : validNameB k = true) (d : Nat) (s : PState) :
    step s (folderLine d k) =
      ⟨(doPops d s).root, ⟨d, k, []⟩ :: (doPops d s).stack⟩ := by
  rw [step, if_neg (jsTrim_folderLine_ne_nil h d)]
  simp only [getDepth_folderLine h, nameOf_folderLine h, isFolderOf_folderLine h]
  simp

/-! ## Stack-popping lemmas -/

theorem doPopsAux_of_not_le {d : Nat} {f : Frame} (rest : List Frame) (root : Children)
    (hd : ¬ d ≤ f.depth) : doPopsAux d f rest root = ⟨root, f :: rest⟩ := by
  cases rest with
  | nil => rw [doPopsAux, if_neg hd]
  | cons g rest' => rw [doPopsAux, if_neg hd]

theorem doPops_of_collapsed {d : Nat} {s : PState} (h : Collapsed d s) : doPops d s = s := by
  match s with
  | ⟨root, []⟩ => rfl
  | ⟨root, f :: rest⟩ =>
      have hf : f.depth < d := h f (by simp)
      exact doPopsAux_of_not_le rest root (by omega)

theorem collapsed_doPopsAux (d : Nat) (f : Frame) (rest : List Frame) (root : Children) :
    Collapsed d (doPopsAux d f rest root) := by
  induction rest generalizing f root with
  | nil =>
      by_cases hd : d ≤ f.depth
      · rw [doPopsAux, if_pos hd]
        intro f' hf'; simp at hf'
      · rw [doPopsAux, if_neg hd]
        intro f' hf'
        simp only [List.head?_cons, Option.toList_some, List.mem_singleton] at hf'
        subst hf'
        omega
  | cons g rest' ih =>
      by_cases hd : d ≤ f.depth
      · rw [doPopsAux, if_pos hd]
        exact ih _ _
      · rw [doPopsAux, if_neg hd]
        intro f' hf'
        simp only [List.head?_cons, Option.toList_some, List.mem_singleton] at hf'
        subst hf'
        omega

theorem collapsed_doPops (d : Nat) (s : PState) : Collapsed d (doPops d s) := by
  match s with
  | ⟨root, []⟩ => intro f hf; simp [doPops] at hf
  | ⟨root, f :: rest⟩ => exact collapsed_doPopsAux d f rest root

theorem doPops_doPopsAux {d e : Nat} (hde : d ≤ e) (f : Frame) (rest : List Frame)
    (root : Children) : doPops d (doPopsAux e f rest root) = doPopsAux d f rest root := by
  induction rest generalizing f root with
  | nil =>
      by_cases he : e ≤ f.depth
      · rw [doPopsAux, if_pos he, doPopsAux, if_pos (by omega : d ≤ f.depth)]
        rfl
      · rw [doPopsAux, if_neg he]
        show doPopsAux d f [] root = _
        rfl
  | cons g rest' ih =>
      by_cases he : e ≤ f.depth
      · rw [doPopsAux, if_pos he, doPopsAux, if_pos (by omega : d ≤ f.depth)]
        exact ih _ _
      · rw [doPopsAux, if_neg he]
        rfl

theorem doPops_doPops {d e : Nat} (hde : d ≤ e) (s : PState) :
    doPops d (doPops e s) = doPops d s := by
  match s with
  | ⟨root, []⟩ => rfl
  | ⟨root, f :: rest⟩ => exact doPops_doPopsAux hde f rest root

theorem collapsed_insertTop {d : Nat} {k : Str} {v : Node} {s : PState}
    (h : Collapsed d s) : Collapsed d (insertTop k v s) := by
  match s with
  | ⟨root, []⟩ => intro f hf; simp [insertTop] at hf
  | ⟨root, f :: rest⟩ =>
      intro f' hf'
      simp only [insertTop, List.head?_cons, Option.toList_some, List.mem_singleton] at hf'
      subst hf'
      exact h f (by simp)

/-- Popping a single frame whose depth triggers the pop condition, above an
already collapsed stack, writes it back into its parent. -/
theorem doPops_cons {d : Nat} {root : Children} {f : Frame} {st : List Frame}
    (hd : d ≤ f.depth) (h : Collapsed d ⟨root, st⟩) :
    doPops d ⟨root, f :: st⟩ = insertTop f.name (Node.dir f.children) ⟨root, st⟩ := by
  cases st with
  | nil =>
      show doPopsAux d f [] root = _
      rw [doPopsAux, if_pos hd]
      rfl
  | cons g rest =>
      have hg : g.depth < d := h g (by simp)
      show doPopsAux d f (g :: rest) root = _
      rw [doPopsAux, if_pos hd,
        doPopsAux_of_not_le (f := { g with children := upsert f.name (Node.dir f.children) g.children })
          rest root (show ¬ d ≤ g.depth by omega)]
      rfl

theorem flushAllAux_eq_doPopsAux (f : Frame) (rest : List Frame) (root : Children) :
    flushAllAux f rest root = (doPopsAux 0 f rest root).root := by
  induction rest generalizing f root with
  | nil => rw [flushAllAux, doPopsAux, if_pos (Nat.zero_le _)]
  | cons g rest' ih => rw [flushAllAux, doPopsAux, if_pos (Nat.zero_le _), ih]

theorem flushAll_eq_doPops (s : PState) : flushAll s = (doPops 0 s).root := by
  match s with
  | ⟨root, []⟩ => rfl
  | ⟨root, f :: rest⟩ => exact flushAllAux_eq_doPopsAux f rest root

/-! ## Insertion lemmas -/

theorem runParse_append (s : PState) (xs ys : List Str) :
    runParse s (xs ++ ys) = runParse (runParse s xs) ys := by
  simp [runParse, List.foldl_append]

theorem insertAllTop_nil_stack (cs root : Children) :
    insertAllTop cs ⟨root, []⟩ = ⟨upsertAll cs root, []⟩ := by
  induction cs generalizing root with
  | nil => rfl
  | cons e rest ih => simpa [insertAllTop, upsertAll, insertTop] using ih (upsert e.1 e.2 root)

theorem insertAllTop_cons_stack (cs root : Children) (f : Frame) (rest : List Frame) :
    insertAllTop cs ⟨root, f :: rest⟩ =
      ⟨root, { f with children := upsertAll cs f.children } :: rest⟩ := by
  induction cs generalizing f with
  | nil => rfl
  | cons e cs' ih =>
      simpa [insertAllTop, upsertAll, insertTop]
        using ih { f with children := upsert e.1 e.2 f.children }

theorem upsert_of_not_mem {k : Str} {v : Node} {acc : Children}
    (h : ∀ e ∈ acc, e.1 ≠ k) : upsert k v acc = acc ++ [(k, v)] := by
  induction acc with
  | nil => rfl
  | cons e rest ih =>
      obtain ⟨k', v'⟩ := e
      have hne : k' ≠ k := h (k', v') (by simp)
      simp only [upsert, if_neg hne, List.cons_append, List.cons.injEq, true_and]
      exact ih (fun e he => h e (by simp [he]))

theorem upsertAll_of_disjoint {cs acc : Children}
    (hnd : cs.Pairwise (fun a b => a.1 ≠ b.1))
    (hdisj : ∀ e ∈ acc, ∀ e' ∈ cs, e.1 ≠ e'.1) :
    upsertAll cs acc = acc ++ cs := by
  induction cs generalizing acc with
  | nil => simp [upsertAll]
  | cons e rest ih =>
      obtain ⟨k, n⟩ := e
      have h1 : upsert k n acc = acc ++ [(k, n)] :=
        upsert_of_not_mem (fun e he => hdisj e he (k, n) (by simp))
      have h2 : ∀ e ∈ acc ++ [(k, n)], ∀ e' ∈ rest, e.1 ≠ e'.1 := by
        intro e he e' he'
        rcases List.mem_append.mp he with he | he
        · exact hdisj e he e' (by simp [he'])
        · simp only [List.mem_singleton] at he
          subst he
          exact (List.pairwise_cons.mp hnd).1 e' he'
      calc upsertAll ((k, n) :: rest) acc = upsertAll rest (upsert k n acc) := rfl
        _ = upsertAll rest (acc ++ [(k, n)]) := by rw [h1]
        _ = (acc ++ [(k, n)]) ++ rest := ih (List.pairwise_cons.mp hnd).2 h2
        _ = acc ++ ((k, n) :: rest) := by simp

theorem wfChildrenB_cons {k : Str} {n : Node} {rest : Children}
    (h : wfChildrenB ((k, n) :: rest) = true) :
    validNameB k = true ∧ wfNodeB n = true ∧ (∀ e ∈ rest, e.1 ≠ k) ∧
      wfChildrenB rest = true := by
  simp only [wfChildrenB, Bool.and_eq_true, List.all_eq_true] at h
  obtain ⟨⟨⟨h1, h2⟩, h3⟩, h4⟩ := h
  refine ⟨h1, h2, ?_, h4⟩
  intro e he
  have := h3 e he
  simpa using this

theorem wfChildrenB_pairwise {cs : Children} (h : wfChildrenB cs = true) :
    cs.Pairwise (fun a b => a.1 ≠ b.1) := by
  induction cs with
  | nil => exact List.Pairwise.nil
  | cons e rest ih =>
      obtain ⟨k, n⟩ := e
      obtain ⟨_, _, h3, h4⟩ := wfChildrenB_cons h
      exact List.Pairwise.cons (fun e' he' => (h3 e' he').symm) (ih h4)

theorem upsertAll_self_of_wf {cs : Children} (h : wfChildrenB cs = true) :
    upsertAll cs [] = cs := by
  have h2 : ∀ e ∈ ([] : Children), ∀ e' ∈ cs, e.1 ≠ e'.1 := fun e he => by simp at he
  have := upsertAll_of_disjoint (wfChildrenB_pairwise h) h2
  simpa using this

/-! ## Structural invariants preserved by the parser

`P` is a property of nodes and `Q` the corresponding property of child lists;
the parser preserves any such pair closed under `upsert`, directory formation,
the `null` file marker and the empty object. -/

theorem mem_upsert {k : Str} {v : Node} {cs : Children} {e : Str × Node}
    (h : e ∈ upsert k v cs) : e = (k, v) ∨ e ∈ cs := by
  induction cs with
  | nil => simpa [upsert] using h
  | cons e' rest ih =>
      obtain ⟨k', v'⟩ := e'
      by_cases hk : k' = k
      · rw [upsert, if_pos hk] at h
        rcases List.mem_cons.mp h with h | h
        · exact Or.inl h
        · exact Or.inr (List.mem_cons_of_mem _ h)
      · rw [upsert, if_neg hk] at h
        rcases List.mem_cons.mp h with h | h
        · exact Or.inr (by simp [h])
        · rcases ih h with h | h
          · exact Or.inl h
          · exact Or.inr (List.mem_cons_of_mem _ h)

theorem stateInv_doPopsAux {P : Node → Bool} {Q : Children → Bool}
    (hup : ∀ k v cs, P v = true → Q cs = true → Q (upsert k v cs) = true)
    (hdir : ∀ ch, Q ch = true → P (Node.dir ch) = true)
    {d : Nat} {f : Frame} {rest : List Frame} {root : Children}
    (hroot : Q root = true) (hf : Q f.children = true)
    (hrest : ∀ g ∈ rest, Q g.children = true) :
    Q (doPopsAux d f rest root).root = true ∧
      ∀ g ∈ (doPopsAux d f rest root).stack, Q g.children = true := by
  induction rest generalizing f root with
  | nil =>
      by_cases hd : d ≤ f.depth
      · rw [doPopsAux, if_pos hd]
        exact ⟨hup _ _ _ (hdir _ hf) hroot, by simp⟩
      · rw [doPopsAux, if_neg hd]
        refine ⟨hroot, ?_⟩
        intro g hg
        simp only [List.mem_singleton] at hg
        subst hg
        exact hf
  | cons g rest' ih =>
      by_cases hd : d ≤ f.depth
      · rw [doPopsAux, if_pos hd]
        exact ih hroot (hup _ _ _ (hdir _ hf) (hrest g (by simp)))
          (fun g' hg' => hrest g' (by simp [hg']))
      · rw [doPopsAux, if_neg hd]
        refine ⟨hroot, ?_⟩
        intro g' hg'
        rcases List.mem_cons.mp hg' with hg' | hg'
        · subst hg'; exact hf
        · exact hrest g' hg'

theorem stateInv_doPops {P : Node → Bool} {Q : Children → Bool}
    (hup : ∀ k v cs, P v = true → Q cs = true → Q (upsert k v cs) = true)
    (hdir : ∀ ch, Q ch = true → P (Node.dir ch) = true)
    {d : Nat} {s : PState}
    (hroot : Q s.root = true) (hstack : ∀ g ∈ s.stack, Q g.children = true) :
    Q (doPops d s).root = true ∧ ∀ g ∈ (doPops d s).stack, Q g.children = true := by
  match s with
  | ⟨root, []⟩ => exact ⟨hroot, by simp [doPops]⟩
  | ⟨root, f :: rest⟩ =>
      exact stateInv_doPopsAux hup hdir hroot (hstack f (by simp))
        (fun g hg => hstack g (by simp [hg]))

theorem stateInv_insertTop {P : Node → Bool} {Q : Children → Bool}
    (hup : ∀ k v cs, P v = true → Q cs = true → Q (upsert k v cs) = true)
    {k : Str} {v : Node} {s : PState} (hv : P v = true)
    (hroot : Q s.root = true) (hstack : ∀ g ∈ s.stack, Q g.children = true) :
    Q (insertTop k v s).root = true ∧ ∀ g ∈ (insertTop k v s).stack, Q g.children = true := by
  match s with
  | ⟨root, []⟩ => exact ⟨hup _ _ _ hv hroot, by simp [insertTop]⟩
  | ⟨root, f :: rest⟩ =>
      refine ⟨hroot, ?_⟩
      intro g hg
      simp only [insertTop, List.mem_cons] at hg
      rcases hg with hg | hg
      · subst hg
        exact hup _ _ _ hv (hstack f (by simp))
      · exact hstack g (by simp [hg])

theorem stateInv_step {P : Node → Bool} {Q : Children → Bool}
    (hup : ∀ k v cs, P v = true → Q cs = true → Q (upsert k v cs) = true)
    (hdir : ∀ ch, Q ch = true → P (Node.dir ch) = true)
    (hfile : P Node.file = true) (hnil : Q [] = true)
    {s : PState} {l : Str}
    (hroot : Q s.root = true) (hstack : ∀ g ∈ s.stack, Q g.children = true) :
    Q (step s l).root = true ∧ ∀ g ∈ (step s l).stack, Q g.children = true := by
  rw [step]
  by_cases hb : jsTrim l = []
  · rw [if_pos hb]
    exact ⟨hroot, hstack⟩
  · rw [if_neg hb]
    obtain ⟨h1, h2⟩ := stateInv_doPops hup hdir (d := getDepth l) (s := s) hroot hstack
    by_cases hfold : isFolderOf l
    · simp only [hfold, if_true]
      refine ⟨h1, ?_⟩
      intro g hg
      rcases List.mem_cons.mp hg with hg | hg
      · subst hg; exact hnil
      · exact h2 g hg
    · simp only [hfold, if_false]
      exact stateInv_insertTop hup hfile h1 h2

theorem stateInv_runParse {P : Node → Bool} {Q : Children → Bool}
    (hup : ∀ k v cs, P v = true → Q cs = true → Q (upsert k v cs) = true)
    (hdir : ∀ ch, Q ch = true → P (Node.dir ch) = true)
    (hfile : P Node.file = true) (hnil : Q [] = true)
    {s : PState} (lines : List Str)
    (hroot : Q s.root = true) (hstack : ∀ g ∈ s.stack, Q g.children = true) :
    Q (runParse s lines).root = true ∧ ∀ g ∈ (runParse s lines).stack, Q g.children = true := by
  induction lines generalizing s with
  | nil => exact ⟨hroot, hstack⟩
  | cons l rest ih =>
      obtain ⟨h1, h2⟩ := stateInv_step hup hdir hfile hnil (l := l) hroot hstack
      exact ih h1 h2

/-- Any node/children property closed under the parser's four constructions
holds of every parse result. -/
theorem parseTree_inv {P : Node → Bool} {Q : Children → Bool}
    (hup : ∀ k v cs, P v = true → Q cs = true → Q (upsert k v cs) = true)
    (hdir : ∀ ch, Q ch = true → P (Node.dir ch) = true)
    (hfile : P Node.file = true) (hnil : Q [] = true)
    (lines : List Str) : Q (parseTree lines) = true := by
  have h0 : parseTree lines = flushAll (runParse ⟨[], []⟩ lines) := rfl
  rw [h0, flushAll_eq_doPops]
  obtain ⟨h1, h2⟩ := stateInv_runParse hup hdir hfile hnil (s := ⟨[], []⟩) lines hnil (by simp)
  exact (stateInv_doPops hup hdir h1 h2).1

/-! ## Instantiating the invariant: key distinctness and absence of literals -/

theorem nodupKeysChildrenB_cons_iff {k : Str} {n : Node} {rest : Children} :
    nodupKeysChildrenB ((k, n) :: rest) = true ↔
      nodupKeysNodeB n = true ∧ (∀ e ∈ rest, e.1 ≠ k) ∧ nodupKeysChildrenB rest = true := by
  rw [nodupKeysChildrenB]
  simp only [Bool.and_eq_true, List.all_eq_true, Bool.not_eq_true', beq_eq_false_iff_ne]
  tauto

theorem nodupKeysChildrenB_upsert (k : Str) (v : Node) (cs : Children)
    (hv : nodupKeysNodeB v = true) (h : nodupKeysChildrenB cs = true) :
    nodupKeysChildrenB (upsert k v cs) = true := by
  induction cs with
  | nil =>
      rw [upsert]
      exact nodupKeysChildrenB_cons_iff.mpr ⟨hv, by simp, rfl⟩
  | cons e rest ih =>
      obtain ⟨k', v'⟩ := e
      obtain ⟨h1, h2, h3⟩ := nodupKeysChildrenB_cons_iff.mp h
      by_cases hk : k' = k
      · subst hk
        rw [upsert, if_pos rfl]
        exact nodupKeysChildrenB_cons_iff.mpr ⟨hv, h2, h3⟩
      · rw [upsert, if_neg hk]
        refine nodupKeysChildrenB_cons_iff.mpr ⟨h1, ?_, ih h3⟩
        intro e he
        rcases mem_upsert he with he | he
        · subst he
          exact fun hkk => hk hkk.symm
        · exact h2 e he

theorem noLitChildrenB_cons_iff {k : Str} {n : Node} {rest : Children} :
    noLitChildrenB ((k, n) :: rest) = true ↔
      noLitNodeB n = true ∧ noLitChildrenB rest = true := by
  rw [noLitChildrenB]
  simp [Bool.and_eq_true]

theorem noLitChildrenB_upsert (k : Str) (v : Node) (cs : Children)
    (hv : noLitNodeB v = true) (h : noLitChildrenB cs = true) :
    noLitChildrenB (upsert k v cs) = true := by
  induction cs with
  | nil =>
      rw [upsert]
      exact noLitChildrenB_cons_iff.mpr ⟨hv, rfl⟩
  | cons e rest ih =>
      obtain ⟨k', v'⟩ := e
      obtain ⟨h1, h2⟩ := noLitChildrenB_cons_iff.mp h
      by_cases hk : k' = k
      · rw [upsert, if_pos hk]
        exact noLitChildrenB_cons_iff.mpr ⟨hv, h2⟩
      · rw [upsert, if_neg hk]
        exact noLitChildrenB_cons_iff.mpr ⟨h1, ih h2⟩

/-- Every directory of any parse result has pairwise-distinct keys. -/
theorem parseTree_nodupKeys (lines : List Str) :
    nodupKeysChildrenB (parseTree lines) = true :=
  parseTree_inv nodupKeysChildrenB_upsert (fun ch h => by rw [nodupKeysNodeB]; exact h)
    rfl rfl lines

/-- No parse result contains a literal-content node. -/
theorem parseTree_noLit (lines : List Str) :
    noLitChildrenB (parseTree lines) = true :=
  parseTree_inv noLitChildrenB_upsert (fun ch h => by rw [noLitNodeB]; exact h)
    rfl rfl lines

/-! ## Where keys come from

Every key anywhere in a parse result is the computed entry name of some
non-blank input line. -/

theorem childrenKeys_upsert {x k : Str} {v : Node} {cs : Children}
    (h : x ∈ childrenKeys (upsert k v cs)) :
    x = k ∨ x ∈ nodeKeys v ∨ x ∈ childrenKeys cs := by
  induction cs with
  | nil =>
      rw [upsert, childrenKeys] at h
      simp only [List.mem_cons, List.mem_append, childrenKeys, List.not_mem_nil,
        or_false] at h
      tauto
  | cons e rest ih =>
      obtain ⟨k', v'⟩ := e
      by_cases hk : k' = k
      · rw [upsert, if_pos hk, childrenKeys] at h
        subst hk
        simp only [List.mem_cons, List.mem_append] at h
        rcases h with h | h | h
        · exact Or.inl h
        · exact Or.inr (Or.inl h)
        · exact Or.inr (Or.inr (by rw [childrenKeys]; simp [h]))
      · rw [upsert, if_neg hk, childrenKeys] at h
        simp only [List.mem_cons, List.mem_append] at h
        rcases h with h | h | h
        · exact Or.inr (Or.inr (by rw [childrenKeys]; simp [h]))
        · exact Or.inr (Or.inr (by rw [childrenKeys]; simp [h]))
        · rcases ih h with h | h | h
          · exact Or.inl h
          · exact Or.inr (Or.inl h)
          · exact Or.inr (Or.inr (by rw [childrenKeys]; simp [h]))

theorem stateKeys_doPopsAux {x : Str} {d : Nat} {f : Frame} {rest : List Frame}
    {root : Children} (h : x ∈ stateKeys (doPopsAux d f rest root)) :
    x ∈ stateKeys ⟨root, f :: rest⟩ := by
  induction rest generalizing f root with
  | nil =>
      by_cases hd : d ≤ f.depth
      · rw [doPopsAux, if_pos hd] at h
        simp only [stateKeys, framesKeys, List.append_nil, List.mem_append,
          List.mem_cons, List.not_mem_nil, or_false] at h ⊢
        rcases childrenKeys_upsert h with h | h | h
        · exact Or.inr (Or.inl h)
        · rw [nodeKeys] at h
          exact Or.inr (Or.inr h)
        · exact Or.inl h
      · rw [doPopsAux, if_neg hd] at h
        exact h
  | cons g rest' ih =>
      by_cases hd : d ≤ f.depth
      · rw [doPopsAux, if_pos hd] at h
        have h2 := ih h
        simp only [stateKeys, framesKeys, List.mem_append, List.mem_cons] at h2 ⊢
        rcases h2 with h2 | h2 | h2
        · exact Or.inl h2
        · exact Or.inr (Or.inr (Or.inr (Or.inl h2)))
        · rcases h2 with h2 | h2
          · rcases childrenKeys_upsert h2 with h3 | h3 | h3
            · exact Or.inr (Or.inl h3)
            · rw [nodeKeys] at h3
              exact Or.inr (Or.inr (Or.inl h3))
            · exact Or.inr (Or.inr (Or.inr (Or.inr (Or.inl h3))))
          · exact Or.inr (Or.inr (Or.inr (Or.inr (Or.inr h2))))
      · rw [doPopsAux, if_neg hd] at h
        exact h

theorem stateKeys_doPops {x : Str} {d : Nat} {s : PState}
    (h : x ∈ stateKeys (doPops d s)) : x ∈ stateKeys s := by
  match s with
  | ⟨root, []⟩ => exact h
  | ⟨root, f :: rest⟩ => exact stateKeys_doPopsAux h

theorem stateKeys_insertTop {x k : Str} {v : Node} {s : PState}
    (h : x ∈ stateKeys (insertTop k v s)) :
    x = k ∨ x ∈ nodeKeys v ∨ x ∈ stateKeys s := by
  match s with
  | ⟨root, []⟩ =>
      simp only [insertTop, stateKeys, framesKeys, List.append_nil] at h ⊢
      exact childrenKeys_upsert h
  | ⟨root, f :: rest⟩ =>
      simp only [insertTop, stateKeys, framesKeys, List.mem_append, List.mem_cons] at h ⊢
      rcases h with h | h | h
      · exact Or.inr (Or.inr (Or.inl h))
      · exact Or.inr (Or.inr (Or.inr (Or.inl h)))
      · rcases h with h | h
        · rcases childrenKeys_upsert h with h | h | h
          · exact Or.inl h
          · exact Or.inr (Or.inl h)
          · exact Or.inr (Or.inr (Or.inr (Or.inr (Or.inl h))))
        · exact Or.inr (Or.inr (Or.inr (Or.inr (Or.inr h))))

theorem stateKeys_step {x : Str} {s : PState} {l : Str}
    (h : x ∈ stateKeys (step s l)) :
    (jsTrim l ≠ [] ∧ x = nameOf l) ∨ x ∈ stateKeys s := by
  rw [step] at h
  by_cases hb : jsTrim l = []
  · rw [if_pos hb] at h
    exact Or.inr h
  · rw [if_neg hb] at h
    by_cases hfold : isFolderOf l
    · simp only [hfold, if_true] at h
      simp only [stateKeys, framesKeys, childrenKeys, List.nil_append, List.mem_append,
        List.mem_cons] at h
      rcases h with h | h | h
      · exact Or.inr (stateKeys_doPops (d := getDepth l)
          (by simp only [stateKeys, List.mem_append]; exact Or.inl h))
      · exact Or.inl ⟨hb, h⟩
      · exact Or.inr (stateKeys_doPops (d := getDepth l)
          (by simp only [stateKeys, List.mem_append]; exact Or.inr h))
    · simp only [hfold, if_false] at h
      rcases stateKeys_insertTop h with h | h | h
      · exact Or.inl ⟨hb, h⟩
      · rw [nodeKeys] at h
        simp at h
      · exact Or.inr (stateKeys_doPops h)

theorem stateKeys_runParse {x : Str} {s : PState} {lines : List Str}
    (h : x ∈ stateKeys (runParse s lines)) :
    x ∈ stateKeys s ∨ ∃ l ∈ lines, jsTrim l ≠ [] ∧ x = nameOf l := by
  induction lines generalizing s with
  | nil => exact Or.inl h
  | cons l rest ih =>
      rcases ih h with h | h
      · rcases stateKeys_step h with h | h
        · exact Or.inr ⟨l, by simp, h⟩
        · exact Or.inl h
      · obtain ⟨l', hl', h1, h2⟩ := h
        exact Or.inr ⟨l', by simp [hl'], h1, h2⟩

/-- Every key of every directory of any parse result is the computed entry
name of some non-blank input line. -/
theorem parseTree_keyOrigin {x : Str} {lines : List Str}
    (h : x ∈ childrenKeys (parseTree lines)) :
    ∃ l ∈ lines, jsTrim l ≠ [] ∧ x = nameOf l := by
  have h0 : parseTree lines = flushAll (runParse ⟨[], []⟩ lines) := rfl
  rw [h0, flushAll_eq_doPops] at h
  have h1 : x ∈ stateKeys (doPops 0 (runParse ⟨[], []⟩ lines)) := by
    simp only [stateKeys, List.mem_append]
    exact Or.inl h
  rcases stateKeys_runParse (stateKeys_doPops h1) with h2 | h2
  · simp [stateKeys, framesKeys, childrenKeys] at h2
  · exact h2

/-! ## The parser/renderer round trip -/

/-- Running the parser over the canonical rendering of a well-formed child
list at depth `d`, from any state, and then collapsing the stack back to
depth `d`, inserts exactly those children into the directory that is on top
once the state is collapsed. -/
theorem runParse_renderChildren (cs : Children) (d : Nat) (s : PState)
    (h : wfChildrenB cs = true) :
    doPops d (runParse s (renderChildren d cs)) = insertAllTop cs (doPops d s) := by
  match cs with
  | [] => simp [renderChildren, runParse, insertAllTop]
  | (k, Node.file) :: rest =>
      obtain ⟨hk, _, _, hrest⟩ := wfChildrenB_cons h
      rw [renderChildren, renderEntry, runParse_append]
      have h1 : runParse s [fileLine d k] = insertTop k Node.file (doPops d s) := by
        simp [runParse, step_fileLine hk]
      rw [h1, runParse_renderChildren rest d _ hrest,
        doPops_of_collapsed (collapsed_insertTop (collapsed_doPops d s))]
      rfl
  | (k, Node.lit c) :: rest =>
      obtain ⟨_, hn, _, _⟩ := wfChildrenB_cons h
      simp [wfNodeB] at hn
  | (k, Node.dir ds) :: rest =>
      obtain ⟨hk, hn, _, hrest⟩ := wfChildrenB_cons h
      have hds : wfChildrenB ds = true := by simpa [wfNodeB] using hn
      rw [renderChildren, renderEntry]
      rw [show (folderLine d k :: renderChildren (d + 1) ds) ++ renderChildren d rest =
        [folderLine d k] ++ (renderChildren (d + 1) ds ++ renderChildren d rest) by simp]
      rw [runParse_append, runParse_append]
      have h1 : runParse s [folderLine d k] =
          ⟨(doPops d s).root, ⟨d, k, []⟩ :: (doPops d s).stack⟩ := by
        simp [runParse, step_folderLine hk]
      rw [h1]
      set s2 : PState := ⟨(doPops d s).root, ⟨d, k, []⟩ :: (doPops d s).stack⟩ with hs2
      have hcol2 : Collapsed (d + 1) s2 := by
        intro f hf
        simp only [hs2, List.head?_cons, Option.toList_some, List.mem_singleton] at hf
        subst hf
        exact Nat.lt_succ_self d
      have hinner := runParse_renderChildren ds (d + 1) s2 hds
      rw [doPops_of_collapsed hcol2, insertAllTop_cons_stack, upsertAll_self_of_wf hds] at hinner
      have hinner' : doPops (d + 1) (runParse s2 (renderChildren (d + 1) ds)) =
          ⟨(doPops d s).root, ⟨d, k, ds⟩ :: (doPops d s).stack⟩ := hinner
      have houter := runParse_renderChildren rest d (runParse s2 (renderChildren (d + 1) ds)) hrest
      have hpop : ∀ p : PState, Collapsed d p →
          doPops d ⟨p.root, (⟨d, k, ds⟩ : Frame) :: p.stack⟩ = insertTop k (Node.dir ds) p := by
        intro p hp
        obtain ⟨proot, pstack⟩ := p
        exact doPops_cons (Nat.le_refl d) hp
      rw [houter, ← doPops_doPops (Nat.le_succ d) (runParse s2 (renderChildren (d + 1) ds)),
        hinner', hpop (doPops d s) (collapsed_doPops d s)]
      rfl
termination_by sizeOf cs
decreasing_by all_goals (simp_wf <;> omega)

/-- Parsing the canonical 4-space rendering of a well-formed hierarchy
reproduces the hierarchy exactly. -/
theorem parseTree_renderChildren {t : Children} (h : wfChildrenB t = true) :
    parseTree (renderChildren 0 t) = t := by
  have h0 : parseTree (renderChildren 0 t) = flushAll (runParse ⟨[], []⟩ (renderChildren 0 t)) :=
    rfl
  rw [h0, flushAll_eq_doPops, runParse_renderChildren t 0 ⟨[], []⟩ h,
    doPops_of_collapsed (s := ⟨[], []⟩) (by intro f hf; simp at hf),
    insertAllTop_nil_stack, upsertAll_self_of_wf h]

/-! ## Miscellaneous helper lemmas for the claims -/

theorem firstCharIndex_eq_takeWhile (l : Str) :
    firstCharIndex l = (l.takeWhile isTreeChar).length := by
  induction l with
  | nil => rfl
  | cons c rest ih =>
      by_cases hc : isTreeChar c = true
      · rw [firstCharIndex, if_pos hc, List.takeWhile_cons, if_pos hc, List.length_cons, ih]
      · rw [firstCharIndex, if_neg hc, List.takeWhile_cons, if_neg hc]
        rfl

theorem head?_dropWhile {p : Char → Bool} {l : List Char} {c : Char}
    (h : (l.dropWhile p).head? = some c) : p c = false := by
  induction l with
  | nil => simp at h
  | cons a rest ih =>
      rw [List.dropWhile_cons] at h
      by_cases hp : p a = true
      · rw [if_pos hp] at h
        exact ih h
      · rw [if_neg hp] at h
        simp only [List.head?_cons, Option.some.injEq] at h
        subst h
        simpa using hp

theorem head?_dropLast {l : List Char} {c : Char} (h : l.dropLast.head? = some c) :
    l.head? = some c := by
  cases l with
  | nil => simp at h
  | cons a rest =>
      cases rest with
      | nil => simp at h
      | cons b rest' =>
          have hd : (a :: b :: rest').dropLast = a :: (b :: rest').dropLast := rfl
          rw [hd] at h
          simp only [List.head?_cons, Option.some.injEq] at h ⊢
          exact h

/-! ## Materializer failure semantics and placeholder contents -/

/-- If the first failing operation of a trace is its `i`-th one, the executor
performs exactly the operations before it, reports that operation, and
attempts nothing after it. -/
theorem runFsOps_first_failure (fails : FsOp → Bool) (ops : List FsOp) (i : Nat)
    (hi : i < ops.length) (hfail : fails (ops.get ⟨i, hi⟩) = true)
    (hbefore : ∀ op ∈ ops.take i, fails op = false) :
    runFsOps fails ops = (ops.take i, some (ops.get ⟨i, hi⟩)) := by
  induction ops generalizing i with
  | nil => simp at hi
  | cons op rest ih =>
      cases i with
      | zero =>
          rw [runFsOps, if_pos (show fails op = true from hfail)]
          simp
      | succ i' =>
          have hop : fails op = false := hbefore op (by simp [List.take_succ_cons])
          rw [runFsOps, if_neg (by simp [hop])]
          have hi' : i' < rest.length := Nat.lt_of_succ_lt_succ hi
          rw [ih i' hi' hfail
            (fun op' hop' => hbefore op' (by simp [List.take_succ_cons, hop']))]
          simp [List.take_succ_cons]

/-- If no operation of a trace fails, the executor performs all of them and
reports no failure. -/
theorem runFsOps_all_ok (fails : FsOp → Bool) (ops : List FsOp)
    (h : ∀ op ∈ ops, fails op = false) : runFsOps fails ops = (ops, none) := by
  induction ops with
  | nil => rfl
  | cons op rest ih =>
      rw [runFsOps, if_neg (by simp [h op (by simp)])]
      rw [ih (fun op' hop' => h op' (by simp [hop']))]

/-- Every empty-file child the walk encounters produces a write of the
placeholder comment at the joined path. -/
theorem createFromStructure_file_op (base : Str) {k : Str} {cs : Children}
    (h : (k, Node.file) ∈ cs) :
    FsOp.writeFile (pathJoin base k) (placeholder k) ∈
      createFromStructureWithContent base cs := by
  induction cs with
  | nil => simp at h
  | cons e rest ih =>
      rw [createFromStructureWithContent]
      rcases List.mem_cons.mp h with h | h
      · subst h
        simp [createEntry]
      · exact List.mem_append_right _ (ih h)

/-- On a hierarchy with no literal nodes, every file write the walk performs
is a placeholder write: the content of any written file is the placeholder of
the final segment of its path. -/
theorem writeFile_mem_createFromStructure {base : Str} {cs : Children} {p c : Str}
    (hnl : noLitChildrenB cs = true)
    (h : FsOp.writeFile p c ∈ createFromStructureWithContent base cs) :
    ∃ b k, p = pathJoin b k ∧ c = placeholder k := by
  match cs with
  | [] => simp [createFromStructureWithContent] at h
  | (k, Node.file) :: rest =>
      obtain ⟨_, h2⟩ := noLitChildrenB_cons_iff.mp hnl
      rw [createFromStructureWithContent] at h
      rcases List.mem_append.mp h with h | h
      · simp only [createEntry, List.mem_singleton, FsOp.writeFile.injEq] at h
        exact ⟨base, k, h.1, h.2⟩
      · exact writeFile_mem_createFromStructure h2 h
  | (k, Node.lit s) :: rest =>
      obtain ⟨h1, _⟩ := noLitChildrenB_cons_iff.mp hnl
      rw [noLitNodeB] at h1
      exact absurd h1 (by simp)
  | (k, Node.dir ds) :: rest =>
      obtain ⟨h1, h2⟩ := noLitChildrenB_cons_iff.mp hnl
      rw [noLitNodeB] at h1
      rw [createFromStructureWithContent] at h
      rcases List.mem_append.mp h with h | h
      · simp only [createEntry, List.mem_cons] at h
        rcases h with h | h
        · exact absurd h (by simp)
        · exact writeFile_mem_createFromStructure h1 h
      · exact writeFile_mem_createFromStructure h2 h
termination_by sizeOf cs
decreasing_by all_goals (simp_wf <;> omega)

/-- The placeholder comment embeds the file's own name verbatim. -/
theorem placeholder_embeds_name (k : Str) : k <:+: placeholder k :=
  ⟨['/', '/', ' '], ' ' :: ("created by CLI\n".data), rfl⟩

/-- The materializer's operation trace lists exactly the directories and files
of the hierarchy, at their joined paths. -/
theorem createFromStructure_listing (base : Str) (cs : Children) :
    (createFromStructureWithContent base cs).map opEntry = listingChildren base cs := by
  match cs with
  | [] => simp [createFromStructureWithContent, listingChildren]
  | (k, Node.file) :: rest =>
      simp [createFromStructureWithContent, createEntry, listingChildren, listingEntry,
        opEntry, createFromStructure_listing base rest]
  | (k, Node.lit c) :: rest =>
      simp [createFromStructureWithContent, createEntry, listingChildren, listingEntry,
        opEntry, createFromStructure_listing base rest]
  | (k, Node.dir ds) :: rest =>
      simp [createFromStructureWithContent, createEntry, listingChildren, listingEntry,
        opEntry, createFromStructure_listing (pathJoin base k) ds,
        createFromStructure_listing base rest]
termination_by sizeOf cs
decreasing_by all_goals (simp_wf <;> omega)

/-! ## The claims -/

/-- C1: for every well-formed input with a consistent 4-character indentation
unit — the canonical rendering of a well-formed hierarchy — parsing the lines
with `parseTree` reproduces the hierarchy exactly, and materializing the
parse result under a base path creates a filesystem subtree whose
directory/file names and nesting relationships (its listing of kinds and full
paths) are exactly those of the hierarchy the input lines describe. -/
theorem parseTree_materialize_roundTrip (t : Children) (base : Str)
    (h : wfChildrenB t = true) :
    parseTree (renderChildren 0 t) = t ∧
      (createFromStructureWithContent base (parseTree (renderChildren 0 t))).map opEntry =
        listingChildren base t := by
  have h1 := parseTree_renderChildren h
  exact ⟨h1, by rw [h1, createFromStructure_listing]⟩

theorem parseTree_materialize_roundTrip_witness :
    wfChildrenB [(['s', 'r', 'c'], Node.dir [(['a'], Node.file)]), (['b'], Node.file)] = true ∧
      (parseTree (renderChildren 0
          [(['s', 'r', 'c'], Node.dir [(['a'], Node.file)]), (['b'], Node.file)]) =
        [(['s', 'r', 'c'], Node.dir [(['a'], Node.file)]), (['b'], Node.file)] ∧
      (createFromStructureWithContent ['r']
          (parseTree (renderChildren 0
            [(['s', 'r', 'c'], Node.dir [(['a'], Node.file)]), (['b'], Node.file)]))).map opEntry =
        listingChildren ['r']
          [(['s', 'r', 'c'], Node.dir [(['a'], Node.file)]), (['b'], Node.file)]) :=
  ⟨by decide,
   parseTree_materialize_roundTrip
     [(['s', 'r', 'c'], Node.dir [(['a'], Node.file)]), (['b'], Node.file)] ['r'] (by decide)⟩

/-- C2: `parseTree` is a total function — it returns a hierarchy for every
input line sequence — and a line whose depth jumps more than one level deeper
than its predecessor is still attached, under whatever ancestor remains on
the stack after popping: a folder line at depth 0 followed by a file line at
any depth `k ≥ 2` yields the file attached directly under that folder. -/
theorem parseTree_total_and_deep_jump_attaches (a b : Str) (k : Nat)
    (ha : validNameB a = true) (hb : validNameB b = true) (hk : 2 ≤ k) :
    (∀ lines : List Str, ∃ d : Children, parseTree lines = d) ∧
      parseTree [folderLine 0 a, fileLine k b] = [(a, Node.dir [(b, Node.file)])] := by
  refine ⟨fun lines => ⟨parseTree lines, rfl⟩, ?_⟩
  have h0 : parseTree [folderLine 0 a, fileLine k b] =
      flushAll (step (step ⟨[], []⟩ (folderLine 0 a)) (fileLine k b)) := rfl
  rw [h0, step_folderLine ha]
  show flushAll (step ⟨[], [⟨0, a, []⟩]⟩ (fileLine k b)) = _
  rw [step_fileLine hb]
  have hcol : Collapsed k (⟨[], [⟨0, a, []⟩]⟩ : PState) := by
    intro f hf
    simp only [List.head?_cons, Option.toList_some, List.mem_singleton] at hf
    subst hf
    show 0 < k
    omega
  rw [doPops_of_collapsed hcol]
  rfl

theorem parseTree_total_and_deep_jump_attaches_witness :
    validNameB ['a'] = true ∧ validNameB ['b'] = true ∧ 2 ≤ 2 ∧
      parseTree [folderLine 0 ['a'], fileLine 2 ['b']] =
        [(['a'], Node.dir [(['b'], Node.file)])] :=
  ⟨by decide, by decide, by decide,
   (parseTree_total_and_deep_jump_attaches ['a'] ['b'] 2 (by decide) (by decide)
     (by decide)).2⟩

/-- C3: if the `i`-th operation of the materializer's walk is the first to
fail, the walk performs exactly the operations before it (which remain — no
rollback), surfaces the failing operation, and attempts nothing after it. -/
theorem materialize_fail_fast (fails : FsOp → Bool) (base : Str) (t : Children) (i : Nat)
    (hi : i < (createFromStructureWithContent base t).length)
    (hfail : fails ((createFromStructureWithContent base t).get ⟨i, hi⟩) = true)
    (hbefore : ∀ op ∈ (createFromStructureWithContent base t).take i, fails op = false) :
    materialize fails base t =
      ((createFromStructureWithContent base t).take i,
        some ((createFromStructureWithContent base t).get ⟨i, hi⟩)) := by
  rw [materialize]
  exact runFsOps_first_failure fails _ i hi hfail hbefore

theorem materialize_fail_fast_witness :
    (2 < (createFromStructureWithContent ['r']
        [(['a'], Node.file), (['b'], Node.file), (['c'], Node.file),
         (['d'], Node.file), (['e'], Node.file)]).length) ∧
      materialize
          (fun op => match op with
            | FsOp.writeFile p _ => p = ['r', '/', 'c']
            | FsOp.mkdir _ => false)
          ['r']
          [(['a'], Node.file), (['b'], Node.file), (['c'], Node.file),
           (['d'], Node.file), (['e'], Node.file)] =
        ([FsOp.writeFile ['r', '/', 'a'] (placeholder ['a']),
          FsOp.writeFile ['r', '/', 'b'] (placeholder ['b'])],
         some (FsOp.writeFile ['r', '/', 'c'] (placeholder ['c']))) := by
  refine ⟨by decide, ?_⟩
  have h := materialize_fail_fast
    (fun op => match op with
      | FsOp.writeFile p _ => p = ['r', '/', 'c']
      | FsOp.mkdir _ => false)
    ['r']
    [(['a'], Node.file), (['b'], Node.file), (['c'], Node.file),
     (['d'], Node.file), (['e'], Node.file)]
    2 (by decide) (by decide) (by decide)
  exact h

/-- C4: the depth of every line is the floor of `n / 4` where `n` is the
length of the maximal leading run of characters from the indentation glyph
set, so a line with exactly `n` leading glyph characters followed by a
non-glyph character computes to depth `n / 4` (8 and 11 give 2, 12 gives 3;
see the witness). -/
theorem getDepth_floor_leading_run :
    (∀ line : Str, getDepth line = (line.takeWhile isTreeChar).length / 4) ∧
      ∀ pre rest : Str, (∀ c ∈ pre, isTreeChar c = true) → firstCharIndex rest = 0 →
        getDepth (pre ++ rest) = pre.length / 4 := by
  constructor
  · intro line
    rw [getDepth, firstCharIndex_eq_takeWhile]
  · intro pre rest hpre hrest
    rw [getDepth, firstCharIndex_append_of_all rest hpre, hrest]
    rfl

theorem getDepth_floor_leading_run_witness :
    getDepth (List.replicate 8 '─' ++ ['x']) = 2 ∧
      getDepth (List.replicate 11 ' ' ++ ['x']) = 2 ∧
      getDepth (List.replicate 12 ' ' ++ ['x']) = 3 := by
  refine ⟨?_, ?_, ?_⟩
  · rw [getDepth_floor_leading_run.2 (List.replicate 8 '─') ['x'] (by decide) (by decide)]
    decide
  · rw [getDepth_floor_leading_run.2 (List.replicate 11 ' ') ['x'] (by decide) (by decide)]
    decide
  · rw [getDepth_floor_leading_run.2 (List.replicate 12 ' ') ['x'] (by decide) (by decide)]
    decide

/-- C5 counterexample: parser keys can contain the path separator and can be
empty.  The single line `a/b` yields the key `a/b` (it does not end in the
separator, so the whole clean name, separator included, becomes a file key),
and the single line `─` yields the empty key (everything is stripped). -/
theorem parseTree_key_violations :
    parseTree [['a', '/', 'b']] = [(['a', '/', 'b'], Node.file)] ∧
      ('/' ∈ (['a', '/', 'b'] : Str)) ∧
      parseTree [['─']] = [(([] : Str), Node.file)] :=
  ⟨rfl, by decide, rfl⟩

/-- C5 amended: every key of every directory in a parse result is the
computed entry name (clean name, with a trailing separator stripped for
folders) of some non-blank input line; such a key need not be non-empty and
may contain the path separator when the line's clean name does. -/
theorem parseTree_keys_from_lines {lines : List Str} {x : Str}
    (h : x ∈ childrenKeys (parseTree lines)) :
    ∃ l ∈ lines, jsTrim l ≠ [] ∧ x = nameOf l :=
  parseTree_keyOrigin h

theorem parseTree_keys_from_lines_witness :
    (['a'] ∈ childrenKeys (parseTree [['a']])) ∧
      ∃ l ∈ [(['a'] : Str)], jsTrim l ≠ [] ∧ (['a'] : Str) = nameOf l :=
  ⟨by decide, parseTree_keys_from_lines (by decide)⟩

/-- C6: every directory of every parse result has exactly one entry per key
(pairwise-distinct keys, recursively), and a later sibling folder line with
the same name replaces the earlier entry's entire subtree rather than merging
with it: `a/`, a child `x` under it, then `a/` again leaves a single entry
`a` holding the empty directory of the last occurrence. -/
theorem parseTree_duplicate_last_wins :
    (∀ lines : List Str, nodupKeysChildrenB (parseTree lines) = true) ∧
      parseTree [folderLine 0 ['a'], fileLine 1 ['x'], folderLine 0 ['a']] =
        [(['a'], Node.dir [])] :=
  ⟨parseTree_nodupKeys, rfl⟩

/-- C7: a non-blank line whose clean name ends in the path separator becomes
a directory entry named by the clean name without that trailing separator;
any other non-blank line becomes a `null` empty-file entry under the
unmodified clean name. -/
theorem parseTree_folder_detection (l : Str) (h : jsTrim l ≠ []) :
    parseTree [l] =
      [if (cleanOf l).getLast? = some '/' then ((cleanOf l).dropLast, Node.dir [])
       else (cleanOf l, Node.file)] := by
  have h0 : parseTree [l] = flushAll (step ⟨[], []⟩ l) := rfl
  rw [h0, step, if_neg h]
  by_cases hf : isFolderOf l = true
  · simp only [hf, if_true]
    show flushAll ⟨[], [⟨getDepth l, nameOf l, []⟩]⟩ = _
    have hf' : (cleanOf l).getLast? = some '/' := of_decide_eq_true hf
    rw [if_pos hf']
    show [(nameOf l, Node.dir [])] = _
    rw [nameOf, if_pos hf]
  · simp only [hf, if_false]
    show flushAll (insertTop (nameOf l) Node.file ⟨[], []⟩) = _
    have hf' : ¬ (cleanOf l).getLast? = some '/' := by
      intro hc
      exact hf (decide_eq_true hc)
    rw [if_neg hf']
    show [(nameOf l, Node.file)] = _
    rw [nameOf, if_neg (by simp [hf])]

theorem parseTree_folder_detection_witness :
    jsTrim ['s', 'r', 'c', '/'] ≠ [] ∧
      parseTree [['s', 'r', 'c', '/']] =
        [if (cleanOf ['s', 'r', 'c', '/']).getLast? = some '/' then
           ((cleanOf ['s', 'r', 'c', '/']).dropLast, Node.dir [])
         else (cleanOf ['s', 'r', 'c', '/'], Node.file)] :=
  ⟨by decide, parseTree_folder_detection ['s', 'r', 'c', '/'] (by decide)⟩

/-- C8: every `null` (empty-file) child named `k` in a structure produces a
write of the placeholder comment at the path joining the base path with `k`,
and the placeholder content embeds the file's own name verbatim. -/
theorem createFromStructure_placeholder (base : Str) (cs : Children) (k : Str)
    (h : (k, Node.file) ∈ cs) :
    FsOp.writeFile (pathJoin base k) (placeholder k) ∈
        createFromStructureWithContent base cs ∧
      k <:+: placeholder k :=
  ⟨createFromStructure_file_op base h, placeholder_embeds_name k⟩

theorem createFromStructure_placeholder_witness :
    ((['a'], Node.file) ∈ ([(['a'], Node.file)] : Children)) ∧
      (FsOp.writeFile (pathJoin ['r'] ['a']) (placeholder ['a']) ∈
          createFromStructureWithContent ['r'] [(['a'], Node.file)] ∧
        (['a'] : Str) <:+: placeholder ['a']) :=
  ⟨List.mem_singleton.mpr rfl,
   createFromStructure_placeholder ['r'] [(['a'], Node.file)] ['a']
     (List.mem_singleton.mpr rfl)⟩

/-- C9: no parse result contains a literal-content (string) node, so in the
custom-tree workflow every file the materializer writes goes through the
`null` branch: any write it performs on a parse result is a placeholder
write, never a literal-content write. -/
theorem parseTree_never_literal (lines : List Str) (base : Str) :
    noLitChildrenB (parseTree lines) = true ∧
      ∀ p c : Str,
        FsOp.writeFile p c ∈ createFromStructureWithContent base (parseTree lines) →
          ∃ b k, p = pathJoin b k ∧ c = placeholder k :=
  ⟨parseTree_noLit lines,
   fun _ _ h => writeFile_mem_createFromStructure (parseTree_noLit lines) h⟩

/-- C10: an entry name produced by the parser never begins with an
indentation glyph or whitespace character — the leading strip removes every
such maximal run — so a name whose intended first characters are glyphs has
that prefix silently removed, as the line `──x` producing the bare name `x`
illustrates. -/
theorem parseTree_name_never_starts_with_glyph :
    (∀ (line : Str) (c : Char), (nameOf line).head? = some c →
        isConnectorOrWs c = false) ∧
      nameOf ['─', '─', 'x'] = ['x'] := by
  constructor
  · intro line c hc
    have h1 : (cleanOf line).head? = some c := by
      rw [nameOf] at hc
      by_cases hf : isFolderOf line = true
      · rw [if_pos hf] at hc
        exact head?_dropLast hc
      · rw [if_neg hf] at hc
        exact hc
    rw [cleanOf, stripConnectors] at h1
    exact head?_dropWhile h1
  · rfl

theorem parseTree_name_never_starts_with_glyph_witness :
    (nameOf ['x']).head? = some 'x' ∧ isConnectorOrWs 'x' = false :=
  ⟨by decide, parseTree_name_never_starts_with_glyph.1 ['x'] 'x' (by decide)⟩

end Skeldir
